import Mathlib

/-!
Verification of the DotScramble region-detection and effect pipeline.

The Python source is shallowly embedded: pure pixel arithmetic becomes
rational arithmetic with explicit rounding and uint8 saturation; external
collaborators (OpenCV resize/blur, the Tesseract OCR engine, the image
codec) are passed in as function parameters, exactly where the source
delegates to them.  Pixels are modelled as `Fin 256` channel values.
-/

namespace DotScramble

/-! ## Byte arithmetic (model of OpenCV uint8 saturation arithmetic) -/

/-- Rounding to the nearest integer, halves up (model of `cvRound` on the
exact values that occur in the claims; no claim exercises a tie). -/
def roundQ (q : ℚ) : ℤ := ⌊q + 1 / 2⌋

/-- Clamp an integer into the uint8 range `[0, 255]`. -/
def clampInt (z : ℤ) : ℤ := min 255 (max 0 z)

theorem clampInt_nonneg (z : ℤ) : 0 ≤ clampInt z := by
  unfold clampInt; omega

theorem clampInt_le (z : ℤ) : clampInt z ≤ 255 := by
  simp [clampInt]

/-- Saturating cast of an exact rational intensity to a uint8 byte. -/
def clampByte (q : ℚ) : Fin 256 :=
  ⟨(clampInt (roundQ q)).toNat, by
    have h := clampInt_le (roundQ q)
    have h0 := clampInt_nonneg (roundQ q)
    omega⟩

theorem roundQ_natCast (n : ℕ) : roundQ (n : ℚ) = n := by
  unfold roundQ
  rw [add_comm]
  rw [show ((n : ℚ) = ((n : ℤ) : ℚ)) by push_cast; ring]
  rw [Int.floor_add_int]
  norm_num

theorem clampByte_byte (p : Fin 256) : clampByte ((p : ℕ) : ℚ) = p := by
  unfold clampByte
  apply Fin.ext
  simp only [roundQ_natCast]
  have hp : (p : ℕ) ≤ 255 := Nat.lt_succ_iff.mp p.isLt
  simp [clampInt]
  omega

/-- Model of `cv2.addWeighted(src1, alpha, src2, beta, gamma)` on one
uint8 channel value: `saturate(round(alpha*src1 + beta*src2 + gamma))`. -/
def addWeighted (p : Fin 256) (a : ℚ) (o : Fin 256) (b : ℚ) (g : ℚ) : Fin 256 :=
  clampByte (a * ((p : ℕ) : ℚ) + b * ((o : ℕ) : ℚ) + g)

theorem addWeighted_one_zero (p o : Fin 256) : addWeighted p 1 o 0 0 = p := by
  unfold addWeighted
  rw [show (1 * ((p : ℕ) : ℚ) + 0 * ((o : ℕ) : ℚ) + 0) = ((p : ℕ) : ℚ) by ring]
  exact clampByte_byte p

/-! ## Opacity compositing (`ImageProcessor.apply_opacity`, image_processor.py 134-138) -/

/-- `ImageProcessor.apply_opacity` on one channel value:
`alpha = opacity / 100.0; cv2.addWeighted(processed, alpha, original, 1 - alpha, 0)`. -/
def apply_opacity (original processed : Fin 256) (opacity : ℕ) : Fin 256 :=
  let alpha : ℚ := (opacity : ℚ) / 100
  addWeighted processed alpha original (1 - alpha) 0

/-- The spec's formula for opacity compositing, written from its words:
`output = α·effected + (1-α)·original` with `α = opacity/100`, per channel. -/
def applyOpacitySpec (original effected : Fin 256) (opacity : ℕ) : Fin 256 :=
  clampByte (((opacity : ℚ) / 100) * ((effected : ℕ) : ℚ)
    + (1 - (opacity : ℚ) / 100) * ((original : ℕ) : ℚ))

/-- `apply_effect_to_region` tail (main_window.py 649-652): `apply_opacity` is
invoked only when `opacity < 100`; at 100 the raw effected value is kept. -/
def applyEffectOpacityStep (original effected : Fin 256) (opacity : ℕ) : Fin 256 :=
  if opacity < 100 then apply_opacity original effected opacity else effected

theorem apply_opacity_hundred (o p : Fin 256) : apply_opacity o p 100 = p := by
  have h : ((100 : ℕ) : ℚ) / 100 * ((p : ℕ) : ℚ)
      + (1 - ((100 : ℕ) : ℚ) / 100) * ((o : ℕ) : ℚ) + 0 = ((p : ℕ) : ℚ) := by
    push_cast; ring
  simp only [apply_opacity, addWeighted]
  rw [h]
  exact clampByte_byte p

theorem apply_opacity_zero (o p : Fin 256) : apply_opacity o p 0 = o := by
  have h : ((0 : ℕ) : ℚ) / 100 * ((p : ℕ) : ℚ)
      + (1 - ((0 : ℕ) : ℚ) / 100) * ((o : ℕ) : ℚ) + 0 = ((o : ℕ) : ℚ) := by
    push_cast; ring
  simp only [apply_opacity, addWeighted]
  rw [h]
  exact clampByte_byte o

/-- Claim C7: per channel, `apply_opacity` computes
`α·effected + (1-α)·original` with `α = opacity/100`; at `opacity = 100`
the output is the effected value unchanged (both through `apply_opacity`
itself and through the caller's `< 100` short-circuit), and at
`opacity = 0` it is the original value unchanged. -/
theorem opacity_compositing_correct :
    (∀ (o p : Fin 256) (k : ℕ), apply_opacity o p k = applyOpacitySpec o p k)
    ∧ (∀ o p : Fin 256, apply_opacity o p 100 = p)
    ∧ (∀ o p : Fin 256, apply_opacity o p 0 = o)
    ∧ (∀ o p : Fin 256, applyEffectOpacityStep o p 100 = p) := by
  refine ⟨?_, apply_opacity_hundred, apply_opacity_zero, fun o p => rfl⟩
  intro o p k
  simp only [apply_opacity, addWeighted, applyOpacitySpec]
  exact congrArg clampByte (by ring)

/-! ## Images and the GradientFade effect (`ImageProcessor.gradient_fade`, image_processor.py 40-58) -/

/-- A pixel: three uint8 colour channels. -/
abbrev Pix : Type := Fin 256 × Fin 256 × Fin 256

/-- An image region: row-major grid of pixels. -/
abbrev Img : Type := List (List Pix)

/-- Model of `np.linspace(0, 1, h).reshape(-1,1)`, tiled to width `w` and
converted to uint8 by `(gradient * 255).astype(np.uint8)` (truncation).
Built by `gradient_fade` and then never read again — faithful to the source. -/
def gradientMask (h w : ℕ) : List (List ℕ) :=
  (List.range h).map (fun i =>
    let v : ℚ := if h ≤ 1 then 0 else (i : ℚ) / ((h : ℚ) - 1)
    List.replicate w (Int.toNat ⌊v * 255⌋))

/-- Positional map carrying the row/column index, used to model numpy's
elementwise channel assignment. -/
def mapWithIndex (f : ℕ → α → β) : ℕ → List α → List β
  | _, [] => []
  | i, a :: as => f i a :: mapWithIndex f (i + 1) as

/-- `ImageProcessor.gradient_fade`: copies the region, builds the gradient
mask, blurs the region with the `cv2.GaussianBlur (99, 99)` collaborator
(passed in as `blur`), then per channel writes
`cv2.addWeighted(region_c, 1, blurred_c, 0, 0)` back into the copy. -/
def gradient_fade (blur : Img → Img) (region : Img) : Img :=
  let _gradient := gradientMask region.length (region.headD []).length
  let blurred := blur region
  mapWithIndex (fun i row =>
    mapWithIndex (fun j px =>
      let bp := (blurred.getD i []).getD j px
      (addWeighted px.1 1 bp.1 0 0,
       addWeighted px.2.1 1 bp.2.1 0 0,
       addWeighted px.2.2 1 bp.2.2 0 0)) 0 row) 0 region

theorem mapWithIndex_id (l : List α) (f : ℕ → α → α) (hf : ∀ i a, f i a = a) :
    ∀ i, mapWithIndex f i l = l := by
  induction l with
  | nil => intro i; rfl
  | cons a as ih =>
    intro i
    simp [mapWithIndex, hf, ih]

/-- Claim C1 (code-bug evidence). `ImageProcessor.gradient_fade` returns the
region unchanged for every region and every blur collaborator: the blend
weights are `1` on the region and `0` on the blurred copy, and the computed
gradient mask is never applied.  This contradicts the spec's (and the
function's own) stated behaviour of fading into the blurred copy along a
vertical gradient. -/
theorem gradient_fade_is_identity (blur : Img → Img) (region : Img) :
    gradient_fade blur region = region := by
  unfold gradient_fade
  apply mapWithIndex_id
  intro i row
  apply mapWithIndex_id
  intro j px
  obtain ⟨r, g, b⟩ := px
  simp [addWeighted_one_zero]

/-! ## Pixelate (`ImageProcessor.pixelate`, image_processor.py 19-31) -/

/-- `ImageProcessor.pixelate`: the two `cv2.resize` collaborators are passed
in (`resizeLinear` for `INTER_LINEAR`, `resizeNearest` for `INTER_NEAREST`);
each takes the target width, target height and the source region.
The source computes `temp_h = max(1, region_h // pixel_size)` and
`temp_w = max(1, region_w // pixel_size)` — floor division. -/
def pixelate (resizeLinear resizeNearest : ℕ → ℕ → Img → Img)
    (region : Img) (pixel_size : ℕ) : Img :=
  let region_h := region.length
  let region_w := (region.headD []).length
  let ps := max 1 pixel_size
  let temp_h := max 1 (region_h / ps)
  let temp_w := max 1 (region_w / ps)
  let temp := resizeLinear temp_w temp_h region
  resizeNearest region_w region_h temp

/-- The Pixelate contract written from the spec's words: downscale the
region to `⌈w/blockSize⌉ × ⌈h/blockSize⌉` (ceiling division) with linear
interpolation, then upscale back to `w × h` with nearest-neighbor;
blockSize floored at 1. -/
def pixelateSpecCeil (resizeLinear resizeNearest : ℕ → ℕ → Img → Img)
    (region : Img) (blockSize : ℕ) : Img :=
  let region_h := region.length
  let region_w := (region.headD []).length
  let ps := max 1 blockSize
  let temp_h := (region_h + ps - 1) / ps
  let temp_w := (region_w + ps - 1) / ps
  let temp := resizeLinear temp_w temp_h region
  resizeNearest region_w region_h temp

/-- The claim as amended: the downscale target is the *floor* division
`max(1, ⌊w/blockSize⌋) × max(1, ⌊h/blockSize⌋)`, then upscale back to
`w × h` with nearest-neighbor; blockSize floored at 1. -/
def pixelateAmendedFloor (resizeLinear resizeNearest : ℕ → ℕ → Img → Img)
    (region : Img) (blockSize : ℕ) : Img :=
  resizeNearest (region.headD []).length region.length
    (resizeLinear ((region.headD []).length / max 1 blockSize ⊔ 1)
      (region.length / max 1 blockSize ⊔ 1) region)

/-- The all-black pixel. -/
def pixZero : Pix := (0, 0, 0)

/-- A resize collaborator whose output records its target dimensions
(a grid of the requested size); distinguishes resize calls at different
target dimensions, as real linear interpolation does. -/
def resizeDims : ℕ → ℕ → Img → Img :=
  fun w h _ => List.replicate h (List.replicate w pixZero)

/-- A resize collaborator that passes its input through. -/
def resizeKeep : ℕ → ℕ → Img → Img := fun _ _ m => m

/-- Claim C4 counterexample: on a 5×5 region with blockSize 2 the code
downscales to 2×2 (`5 // 2 = 2`), not to the spec's ceiling `⌈5/2⌉ = 3`,
and an interpolation collaborator that depends on its target dimensions
observes the difference. -/
theorem pixelate_ceiling_counterexample :
    pixelate resizeDims resizeKeep (List.replicate 5 (List.replicate 5 pixZero)) 2
      ≠ pixelateSpecCeil resizeDims resizeKeep
        (List.replicate 5 (List.replicate 5 pixZero)) 2 := by
  decide

/-- Claim C4 (amended): `ImageProcessor.pixelate` floors blockSize at 1,
downscales to `max(1, ⌊w/blockSize⌋) × max(1, ⌊h/blockSize⌋)` with the
linear-interpolation collaborator, then upscales back to `w × h` with the
nearest-neighbor collaborator. -/
theorem pixelate_floor_dims (resizeLinear resizeNearest : ℕ → ℕ → Img → Img)
    (region : Img) (blockSize : ℕ) :
    pixelate resizeLinear resizeNearest region blockSize
      = pixelateAmendedFloor resizeLinear resizeNearest region blockSize := by
  unfold pixelate pixelateAmendedFloor
  simp [max_comm]

/-! ## History manager (`HistoryManager`, utils.py 15-59) -/

/-- `HistoryManager` state: `history` is the undo stack (`self.history`),
`redo_stack` the redo stack, `max_history` the capacity bound. -/
structure HistoryManager (α : Type) where
  history : List α
  redo_stack : List α
  max_history : ℕ
  deriving Repr, DecidableEq

/-- A fresh manager (`__init__`). -/
def HistoryManager.init (α : Type) (maxHistory : ℕ) : HistoryManager α :=
  ⟨[], [], maxHistory⟩

/-- `save_state(image)`: if the image is not None, append a copy, evict the
oldest entry (`pop(0)`) when the length exceeds `max_history`, and clear
the redo stack; a None image is a complete no-op. -/
def HistoryManager.save_state (m : HistoryManager α) (image : Option α) :
    HistoryManager α :=
  match image with
  | none => m
  | some im =>
    let h := m.history ++ [im]
    let h := if m.max_history < h.length then h.tail else h
    { m with history := h, redo_stack := [] }

/-- `undo()`: pop the most recent entry off the undo stack and return it,
or return None when the stack is empty. -/
def HistoryManager.undo (m : HistoryManager α) :
    Option α × HistoryManager α :=
  match m.history.getLast? with
  | none => (none, m)
  | some im => (some im, { m with history := m.history.dropLast })

/-- `redo()`: pop the most recent entry off the redo stack. -/
def HistoryManager.redo (m : HistoryManager α) :
    Option α × HistoryManager α :=
  match m.redo_stack.getLast? with
  | none => (none, m)
  | some im => (some im, { m with redo_stack := m.redo_stack.dropLast })

/-- `add_to_redo(image)`: append to the redo stack when not None. -/
def HistoryManager.add_to_redo (m : HistoryManager α) (image : Option α) :
    HistoryManager α :=
  match image with
  | none => m
  | some im => { m with redo_stack := m.redo_stack ++ [im] }

/-- `clear()`: empty both stacks. -/
def HistoryManager.clear (m : HistoryManager α) : HistoryManager α :=
  { m with history := [], redo_stack := [] }

/-- One operation of the history interface. -/
inductive HistOp (α : Type) where
  | save : Option α → HistOp α
  | undoOp : HistOp α
  | redoOp : HistOp α
  | addToRedo : Option α → HistOp α
  | clearOp : HistOp α

/-- Apply one operation (return values of undo/redo discarded). -/
def HistoryManager.step (m : HistoryManager α) : HistOp α → HistoryManager α
  | .save img => m.save_state img
  | .undoOp => (m.undo).2
  | .redoOp => (m.redo).2
  | .addToRedo img => m.add_to_redo img
  | .clearOp => m.clear

/-- Run a sequence of operations from a fresh manager. -/
def HistoryManager.run (maxHistory : ℕ) (ops : List (HistOp α)) :
    HistoryManager α :=
  ops.foldl HistoryManager.step (HistoryManager.init α maxHistory)

theorem HistoryManager.save_state_some_len (m : HistoryManager α) (img : α)
    (h : m.history.length ≤ m.max_history) :
    (m.save_state (some img)).history.length ≤ m.max_history := by
  simp only [save_state]
  by_cases hc : m.max_history < (m.history ++ [img]).length
  · rw [if_pos hc]
    simp only [List.length_tail, List.length_append, List.length_singleton] at *
    omega
  · rw [if_neg hc]
    simp only [List.length_append, List.length_singleton] at *
    omega

theorem HistoryManager.save_state_some_redo (m : HistoryManager α) (img : α) :
    (m.save_state (some img)).redo_stack = [] := rfl

theorem HistoryManager.step_length_le (m : HistoryManager α) (op : HistOp α)
    (h : m.history.length ≤ m.max_history) :
    (m.step op).history.length ≤ (m.step op).max_history := by
  cases op with
  | save img =>
    cases img with
    | none => exact h
    | some im =>
      have hmax : (m.step (.save (some im))).max_history = m.max_history := by
        simp [step, save_state]
      rw [hmax]
      exact HistoryManager.save_state_some_len m im h
  | undoOp =>
    simp only [step, undo]
    cases hl : m.history.getLast? with
    | none => exact h
    | some im =>
      simp only []
      calc m.history.dropLast.length ≤ m.history.length := by
            simp [List.length_dropLast]
        _ ≤ m.max_history := h
  | redoOp =>
    simp only [step, redo]
    cases hl : m.redo_stack.getLast? with
    | none => exact h
    | some im => exact h
  | addToRedo img =>
    cases img with
    | none => exact h
    | some im => exact h
  | clearOp => simp [step, clear]

theorem HistoryManager.step_preserves_max (m : HistoryManager α) (op : HistOp α) :
    (m.step op).max_history = m.max_history := by
  cases op with
  | save img => cases img <;> simp [step, save_state]
  | undoOp =>
    simp only [step, undo]
    cases m.history.getLast? <;> rfl
  | redoOp =>
    simp only [step, redo]
    cases m.redo_stack.getLast? <;> rfl
  | addToRedo img => cases img <;> simp [step, add_to_redo]
  | clearOp => rfl

theorem HistoryManager.run_max_eq (maxHistory : ℕ) (ops : List (HistOp α)) :
    (HistoryManager.run maxHistory ops).max_history = maxHistory := by
  unfold HistoryManager.run
  induction ops using List.reverseRecOn with
  | nil => rfl
  | append_singleton ops op ih =>
    rw [List.foldl_append, List.foldl_cons, List.foldl_nil]
    rw [HistoryManager.step_preserves_max]
    exact ih

theorem HistoryManager.run_length_le (maxHistory : ℕ) (ops : List (HistOp α)) :
    (HistoryManager.run maxHistory ops).history.length
      ≤ (HistoryManager.run maxHistory ops).max_history := by
  unfold HistoryManager.run
  induction ops using List.reverseRecOn with
  | nil => simp [HistoryManager.init]
  | append_singleton ops op ih =>
    rw [List.foldl_append, List.foldl_cons, List.foldl_nil]
    exact HistoryManager.step_length_le _ op ih

/-- The four-push / four-undo scenario of the claim, with `maxHistory = 3`
and states A,B,C,D rendered as 1,2,3,4. -/
def histScenario : HistoryManager ℕ :=
  ((((HistoryManager.init ℕ 3).save_state (some 1)).save_state
    (some 2)).save_state (some 3)).save_state (some 4)

/-- Claim C5: after any `save_state` of an actual image — reached by an
arbitrary operation sequence — the undo stack holds at most `maxHistory`
entries and the redo stack is empty; with `maxHistory = 3`, pushing
A,B,C,D retains only B,C,D (oldest evicted first), so three `undo()`
calls return D, C, B and a fourth returns the None sentinel. -/
theorem history_bounded_and_fifo :
    (∀ (α : Type) (maxHistory : ℕ) (ops : List (HistOp α)) (img : α),
      ((HistoryManager.run maxHistory ops).save_state (some img)).history.length
          ≤ maxHistory
        ∧ ((HistoryManager.run maxHistory ops).save_state (some img)).redo_stack = [])
    ∧ histScenario.history = [2, 3, 4]
    ∧ (histScenario.undo).1 = some 4
    ∧ ((histScenario.undo).2.undo).1 = some 3
    ∧ (((histScenario.undo).2.undo).2.undo).1 = some 2
    ∧ ((((histScenario.undo).2.undo).2.undo).2.undo).1 = none := by
  refine ⟨?_, by decide, by decide, by decide, by decide, by decide⟩
  intro α maxHistory ops img
  have hmax := HistoryManager.run_max_eq (α := α) maxHistory ops
  refine ⟨?_, HistoryManager.save_state_some_redo _ img⟩
  have h := HistoryManager.save_state_some_len (HistoryManager.run maxHistory ops)
    img (HistoryManager.run_length_le maxHistory ops)
  rw [hmax] at h
  exact h

/-- Claim C10: `save_state` with a None (absent) image leaves the manager
completely unchanged — nothing pushed, nothing evicted, redo stack kept. -/
theorem save_state_none_noop (α : Type) (m : HistoryManager α) :
    m.save_state none = m := rfl

/-! ## Batch engine (`BatchProcessor`, batch_processor.py 27-121) -/

/-- Index of the last `.` in a character list, if any
(model of Python's `name.rfind('.')`). -/
def lastDotIdx (cs : List Char) : Option ℕ :=
  ((cs.enum.filter (fun p => p.2 = '.')).map (fun p => p.1)).getLast?

/-- Split a character list at a separator character (model of Python's
`str.split(sep)` over the characters). -/
def splitCharList (sep : Char) : List Char → List (List Char)
  | [] => [[]]
  | c :: cs =>
    let r := splitCharList sep cs
    if c = sep then [] :: r
    else (c :: r.headD []) :: r.tail

/-- The final path component (model of `pathlib.Path(p).name`,
POSIX separators). -/
def pathName (p : String) : String :=
  String.mk ((splitCharList '/' p.toList).getLastD p.toList)

/-- Model of `pathlib.Path(...).stem` on a file name: the name with its
final suffix removed; a leading dot or a trailing dot is not a suffix. -/
def pathStem (name : String) : String :=
  match lastDotIdx name.toList with
  | none => name
  | some i =>
    if 0 < i ∧ i + 1 < name.toList.length
    then String.mk (name.toList.take i)
    else name

/-- The derived output file name of `_process_single_image`
(batch_processor.py 91 and 111): `f"processed_{Path(input_path).stem}.jpg"`
— the extension is always `.jpg`. -/
def outputFilename (inputPath : String) : String :=
  "processed_" ++ pathStem (pathName inputPath) ++ ".jpg"

/-- One `BatchProcessor` result record. -/
structure BatchJobResult where
  inputPath : String
  outputPath : Option String
  success : Bool
  regionsProcessed : Option ℕ
  error : Option String
  deriving Repr, DecidableEq

/-- A bounding box in pixel coordinates (`RegionBox`): `(x, y, w, h)`. -/
structure RegionBox where
  x : ℤ
  y : ℤ
  w : ℤ
  h : ℤ
  deriving Repr, DecidableEq

/-- The error message raised by `_process_single_image` when
`cv2.imread` returns None. -/
def loadErrMsg (inputPath : String) : String :=
  "Could not load image: " ++ inputPath

/-- `BatchProcessor._process_single_image`, parameterized over the image
codec (`decode` is `cv2.imread`), the detector dispatch and the per-region
effect application; raises (`Except.error`) when the image fails to
decode, otherwise writes `processed_<stem>.jpg` into the output directory
and records success with the number of regions processed. -/
def processSingleImage {Image : Type}
    (decode : String → Option Image)
    (detect : Image → List RegionBox)
    (applyEff : Image → RegionBox → Image)
    (inputPath outputDir : String) : Except String BatchJobResult :=
  match decode inputPath with
  | none => .error (loadErrMsg inputPath)
  | some image =>
    let regions := detect image
    if regions.isEmpty then
      .ok { inputPath := inputPath,
            outputPath := some (outputDir ++ "/" ++ outputFilename inputPath),
            success := true, regionsProcessed := some 0, error := none }
    else
      let _processed := regions.foldl applyEff image
      .ok { inputPath := inputPath,
            outputPath := some (outputDir ++ "/" ++ outputFilename inputPath),
            success := true, regionsProcessed := some regions.length,
            error := none }

/-- The result record appended by `process_batch`'s exception handler. -/
def failureRecord (inputPath msg : String) : BatchJobResult :=
  { inputPath := inputPath, outputPath := none, success := false,
    regionsProcessed := none, error := some msg }

/-- The recursion of `BatchProcessor.process_batch` from item index `i`:
returns the accumulated result list, the `progress_callback` invocation
log `(i+1, total, result)` and the `error_callback` invocation log
`(path, message)`. -/
def processBatchAux {Image : Type}
    (decode : String → Option Image)
    (detect : Image → List RegionBox)
    (applyEff : Image → RegionBox → Image)
    (outputDir : String) (total : ℕ) :
    ℕ → List String →
      List BatchJobResult × List (ℕ × ℕ × BatchJobResult) × List (String × String)
  | _, [] => ([], [], [])
  | i, p :: ps =>
    let rest := processBatchAux decode detect applyEff outputDir total (i + 1) ps
    match processSingleImage decode detect applyEff p outputDir with
    | .ok r => (r :: rest.1, (i + 1, total, r) :: rest.2.1, rest.2.2)
    | .error e => (failureRecord p e :: rest.1, rest.2.1, (p, e) :: rest.2.2)

/-- `BatchProcessor.process_batch`: run every input path in order,
recovering per-file failures locally. -/
def processBatch {Image : Type}
    (decode : String → Option Image)
    (detect : Image → List RegionBox)
    (applyEff : Image → RegionBox → Image)
    (inputPaths : List String) (outputDir : String) :
    List BatchJobResult × List (ℕ × ℕ × BatchJobResult) × List (String × String) :=
  processBatchAux decode detect applyEff outputDir inputPaths.length 0 inputPaths

theorem processSingleImage_decode_fail {Image : Type}
    (decode : String → Option Image) (detect : Image → List RegionBox)
    (applyEff : Image → RegionBox → Image) (p od : String)
    (h : decode p = none) :
    processSingleImage decode detect applyEff p od = .error (loadErrMsg p) := by
  simp [processSingleImage, h]

theorem processSingleImage_decode_ok {Image : Type}
    (decode : String → Option Image) (detect : Image → List RegionBox)
    (applyEff : Image → RegionBox → Image) (p od : String) (img : Image)
    (h : decode p = some img) :
    ∃ r, processSingleImage decode detect applyEff p od = .ok r
      ∧ r.success = true ∧ r.error = none
      ∧ r.outputPath = some (od ++ "/" ++ outputFilename p) := by
  simp only [processSingleImage, h]
  by_cases hr : (detect img).isEmpty = true
  · rw [if_pos hr]
    exact ⟨_, rfl, rfl, rfl, rfl⟩
  · rw [if_neg hr]
    exact ⟨_, rfl, rfl, rfl, rfl⟩

/-- Claim C3 counterexample: a `.png` input is written as
`processed_<stem>.jpg`, not `processed_<stem>.png` — the derived filename
never keeps the input's own extension. -/
theorem output_extension_counterexample :
    @processSingleImage Unit (fun _ => some ()) (fun _ => []) (fun i _ => i)
        "photo.png" "out"
      = .ok { inputPath := "photo.png",
              outputPath := some "out/processed_photo.jpg",
              success := true, regionsProcessed := some 0, error := none }
    ∧ ("out/processed_photo.jpg" : String) ≠ "out/processed_photo.png" := by
  constructor
  · rfl
  · decide

/-- Claim C3 (amended): for every successfully decoded input file, the batch
engine records the output under the derived filename
`processed_<stem>.jpg` in the output directory — the extension is always
`.jpg` regardless of the input extension. -/
theorem processed_filename_always_jpg {Image : Type}
    (decode : String → Option Image) (detect : Image → List RegionBox)
    (applyEff : Image → RegionBox → Image) (inputPath outputDir : String)
    (img : Image) (h : decode inputPath = some img) :
    ∃ r, processSingleImage decode detect applyEff inputPath outputDir = .ok r
      ∧ r.outputPath
          = some (outputDir ++ "/" ++ ("processed_" ++ pathStem (pathName inputPath) ++ ".jpg"))
      ∧ r.success = true := by
  obtain ⟨r, hr, hs, _, hp⟩ :=
    processSingleImage_decode_ok decode detect applyEff inputPath outputDir img h
  exact ⟨r, hr, by rw [hp]; rfl, hs⟩

/-- Witness for `processed_filename_always_jpg` at a concrete input. -/
theorem processed_filename_always_jpg_witness :
    ∃ r, @processSingleImage Unit (fun _ => some ()) (fun _ => [])
        (fun i _ => i) "a.png" "out" = .ok r
      ∧ r.outputPath
          = some ("out" ++ "/" ++ ("processed_" ++ pathStem (pathName "a.png") ++ ".jpg"))
      ∧ r.success = true :=
  processed_filename_always_jpg (fun _ => some ()) (fun _ => []) (fun i _ => i)
    "a.png" "out" () rfl

theorem batchAux_results_length {Image : Type}
    (decode : String → Option Image) (detect : Image → List RegionBox)
    (applyEff : Image → RegionBox → Image) (od : String) (total : ℕ)
    (ps : List String) : ∀ i,
    (processBatchAux decode detect applyEff od total i ps).1.length = ps.length := by
  induction ps with
  | nil => intro i; rfl
  | cons p ps ih =>
    intro i
    simp only [processBatchAux]
    cases hp : processSingleImage decode detect applyEff p od with
    | ok r => simp [ih]
    | error e => simp [ih]

theorem batchAux_success_map {Image : Type}
    (decode : String → Option Image) (detect : Image → List RegionBox)
    (applyEff : Image → RegionBox → Image) (od : String) (total : ℕ)
    (ps : List String) : ∀ i,
    (processBatchAux decode detect applyEff od total i ps).1.map (fun r => r.success)
      = ps.map (fun p => (decode p).isSome) := by
  induction ps with
  | nil => intro i; rfl
  | cons p ps ih =>
    intro i
    simp only [processBatchAux, List.map_cons]
    cases hd : decode p with
    | none =>
      rw [processSingleImage_decode_fail decode detect applyEff p od hd]
      simp [failureRecord, ih]
    | some img =>
      obtain ⟨r, hr, hs, _, _⟩ :=
        processSingleImage_decode_ok decode detect applyEff p od img hd
      rw [hr]
      simp [hs, ih]

theorem batchAux_error_map {Image : Type}
    (decode : String → Option Image) (detect : Image → List RegionBox)
    (applyEff : Image → RegionBox → Image) (od : String) (total : ℕ)
    (ps : List String) : ∀ i,
    (processBatchAux decode detect applyEff od total i ps).1.map (fun r => r.error)
      = ps.map (fun p => if (decode p).isSome then none else some (loadErrMsg p)) := by
  induction ps with
  | nil => intro i; rfl
  | cons p ps ih =>
    intro i
    simp only [processBatchAux, List.map_cons]
    cases hd : decode p with
    | none =>
      rw [processSingleImage_decode_fail decode detect applyEff p od hd]
      simp [failureRecord, ih]
    | some img =>
      obtain ⟨r, hr, _, he, _⟩ :=
        processSingleImage_decode_ok decode detect applyEff p od img hd
      rw [hr]
      simp [he, ih]

theorem batchAux_error_log {Image : Type}
    (decode : String → Option Image) (detect : Image → List RegionBox)
    (applyEff : Image → RegionBox → Image) (od : String) (total : ℕ)
    (ps : List String) : ∀ i,
    (processBatchAux decode detect applyEff od total i ps).2.2
      = (ps.filter (fun p => (decode p).isNone)).map (fun p => (p, loadErrMsg p)) := by
  induction ps with
  | nil => intro i; rfl
  | cons p ps ih =>
    intro i
    simp only [processBatchAux]
    cases hd : decode p with
    | none =>
      rw [processSingleImage_decode_fail decode detect applyEff p od hd]
      simp only [List.filter_cons, hd, Option.isNone_none]
      simp [ih]
    | some img =>
      obtain ⟨r, hr, _, _, _⟩ :=
        processSingleImage_decode_ok decode detect applyEff p od img hd
      rw [hr]
      simp only [List.filter_cons, hd, Option.isNone_some]
      simp [ih]

theorem batchAux_progress_log {Image : Type}
    (decode : String → Option Image) (detect : Image → List RegionBox)
    (applyEff : Image → RegionBox → Image) (od : String) (total : ℕ)
    (ps : List String) : ∀ i,
    (processBatchAux decode detect applyEff od total i ps).2.1.map (fun q => q.1)
      = ((ps.enumFrom i).filter (fun q => (decode q.2).isSome)).map (fun q => q.1 + 1) := by
  induction ps with
  | nil => intro i; rfl
  | cons p ps ih =>
    intro i
    simp only [processBatchAux, List.enumFrom_cons]
    cases hd : decode p with
    | none =>
      rw [processSingleImage_decode_fail decode detect applyEff p od hd]
      simp only [List.filter_cons, hd]
      simp [ih]
    | some img =>
      obtain ⟨r, hr, _, _, _⟩ :=
        processSingleImage_decode_ok decode detect applyEff p od img hd
      rw [hr]
      simp only [List.filter_cons, hd]
      simp [ih]

/-- A concrete decode collaborator for the three-file scenario: file
"f2" fails to decode, every other file decodes. -/
def decodeF2Fails : String → Option Unit :=
  fun p => if p = "f2" then none else some ()

/-- Claim C6: per-file decode failures in `process_batch` are recovered
locally: every input path yields exactly one result, a failed decode
yields `success = false` with the error message recorded, `error_callback`
is invoked exactly once per failing file, `progress_callback` exactly once
per succeeding file — and in the concrete three-file run where only file 2
fails, the result list has length 3, `results[1].success = false`,
`onError` fires once and `onProgress` fires for files 1 and 3. -/
theorem batch_decode_failure_recovery :
    (∀ (Image : Type) (decode : String → Option Image)
        (detect : Image → List RegionBox) (applyEff : Image → RegionBox → Image)
        (inputPaths : List String) (outputDir : String),
      (processBatch decode detect applyEff inputPaths outputDir).1.length
          = inputPaths.length
        ∧ (processBatch decode detect applyEff inputPaths outputDir).1.map
            (fun r => r.success) = inputPaths.map (fun p => (decode p).isSome)
        ∧ (processBatch decode detect applyEff inputPaths outputDir).1.map
            (fun r => r.error)
            = inputPaths.map
                (fun p => if (decode p).isSome then none else some (loadErrMsg p))
        ∧ (processBatch decode detect applyEff inputPaths outputDir).2.2
            = (inputPaths.filter (fun p => (decode p).isNone)).map
                (fun p => (p, loadErrMsg p))
        ∧ (processBatch decode detect applyEff inputPaths outputDir).2.1.map
            (fun q => q.1)
            = (inputPaths.enum.filter (fun q => (decode q.2).isSome)).map
                (fun q => q.1 + 1))
    ∧ (processBatch decodeF2Fails (fun _ => []) (fun i _ => i)
        ["f1", "f2", "f3"] "out").1.length = 3
    ∧ ((processBatch decodeF2Fails (fun _ => []) (fun i _ => i)
        ["f1", "f2", "f3"] "out").1.getD 1 (failureRecord "" "")).success = false
    ∧ (processBatch decodeF2Fails (fun _ => []) (fun i _ => i)
        ["f1", "f2", "f3"] "out").2.2 = [("f2", loadErrMsg "f2")]
    ∧ (processBatch decodeF2Fails (fun _ => []) (fun i _ => i)
        ["f1", "f2", "f3"] "out").2.1.map (fun q => q.1) = [1, 3] := by
  refine ⟨?_, by decide, by decide, by decide, by decide⟩
  intro Image decode detect applyEff inputPaths outputDir
  refine ⟨batchAux_results_length decode detect applyEff outputDir _ inputPaths 0,
    batchAux_success_map decode detect applyEff outputDir _ inputPaths 0,
    batchAux_error_map decode detect applyEff outputDir _ inputPaths 0,
    batchAux_error_log decode detect applyEff outputDir _ inputPaths 0,
    ?_⟩
  rw [processBatch, batchAux_progress_log]
  rfl

/-! ## Text matching (`TextDetector.detect_specific_word`, text_detector.py 39-219)

Python strings are modelled as their character lists so that every string
operation is a structural recursion the kernel can evaluate. -/

/-- Characters of a Python string. -/
abbrev Chars : Type := List Char

/-- `str.lower()`. -/
def lowerChars (s : Chars) : Chars := s.map Char.toLower

/-- `str.strip()`: drop leading and trailing whitespace. -/
def trimChars (s : Chars) : Chars :=
  ((s.dropWhile Char.isWhitespace).reverse.dropWhile Char.isWhitespace).reverse

/-- Split a character list at every character satisfying `p`, keeping
empty fragments. -/
def splitPred (p : Char → Bool) : Chars → List Chars
  | [] => [[]]
  | c :: cs =>
    let r := splitPred p cs
    if p c then [] :: r
    else (c :: r.headD []) :: r.tail

/-- `str.split()` with no argument: split on whitespace runs, dropping
empty fragments. -/
def splitWsWords (s : Chars) : List Chars :=
  (splitPred Char.isWhitespace s).filter (fun w => !w.isEmpty)

/-- `str.startswith(p)`. -/
def startsWithChars (s p : Chars) : Bool := p.isPrefixOf s

/-- Python's `sub in s` substring containment. -/
def containsChars (s sub : Chars) : Bool :=
  (List.range (s.length + 1)).any (fun i => sub.isPrefixOf (s.drop i))

/-- Case normalization per `case_sensitive` (text_detector.py 96-97, 143). -/
def normalizeChars (caseSensitive : Bool) (s : Chars) : Chars :=
  if caseSensitive then s else lowerChars s

/-- One word reported by the OCR collaborator: text, box `(x, y, w, h)`
and confidence. -/
structure OcrWord where
  text : String
  x : ℤ
  y : ℤ
  w : ℤ
  h : ℤ
  conf : ℤ
  deriving Repr, DecidableEq

/-- Single-word matching (text_detector.py 148-153): equality under
`exact_match`, else substring containment of the target in the word. -/
def singleWordMatch (exactMatch : Bool) (target compare : Chars) : Bool :=
  if exactMatch then compare == target else containsChars compare target

/-- Multi-word matching loop (text_detector.py 154-171): for each target
word, under `exact_match` compare for equality; otherwise if either string
is a prefix of the other, accept only when the detected word is at most
twice as long as the target word, else fall through to the (dead)
equality branch. -/
def multiWordMatch (exactMatch : Bool) (compare : Chars) : List Chars → Bool
  | [] => false
  | t :: ts =>
    if exactMatch then
      if compare == t then true else multiWordMatch exactMatch compare ts
    else if startsWithChars compare t || startsWithChars t compare then
      if compare.length ≤ t.length * 2 then true
      else multiWordMatch exactMatch compare ts
    else if compare == t then true
    else multiWordMatch exactMatch compare ts

/-- The match decision for one detected word (text_detector.py 146-171). -/
def wordMatches (target : Chars) (targetWords : List Chars) (exactMatch : Bool)
    (compare : Chars) : Bool :=
  if targetWords.length == 1 then singleWordMatch exactMatch target compare
  else multiWordMatch exactMatch compare targetWords

/-- The filter collecting matched OCR words (text_detector.py 125-187):
skip empty text after stripping, skip confidences below the floor, then
apply the match decision to the case-normalized text. -/
def matchedWords (ocr : List OcrWord) (targetWord : String) (thr : ℤ)
    (caseSensitive exactMatch : Bool) : List OcrWord :=
  let t := normalizeChars caseSensitive (trimChars targetWord.toList)
  let tws := splitWsWords t
  ocr.filter (fun wd =>
    let text := trimChars wd.text.toList
    !text.isEmpty && !(decide (wd.conf < thr))
      && wordMatches t tws exactMatch (normalizeChars caseSensitive text))

/-! ## Box grouping (`TextDetector._group_nearby_boxes`, text_detector.py 221-300) -/

/-- Stable insertion for the `(y, x)` sort key (text_detector.py 237). -/
def sortedInsertYX (a : RegionBox) : List RegionBox → List RegionBox
  | [] => [a]
  | b :: bs =>
    if a.y < b.y ∨ (a.y = b.y ∧ a.x ≤ b.x) then a :: b :: bs
    else b :: sortedInsertYX a bs

/-- Stable sort of the matched boxes by `(y, x)`. -/
def sortYX (l : List RegionBox) : List RegionBox := l.foldr sortedInsertYX []

/-- The absorption test of the inner grouping loop
(text_detector.py 257-268): the candidate is skipped when the *top-edge*
`y` difference exceeds the larger of the two heights, and absorbed when
the absolute gap between the candidate's left edge and the seed's right
edge is under `max_distance * 3`. -/
def absorbCond (maxDistance : ℤ) (seed cand : RegionBox) : Bool :=
  if max seed.h cand.h < |seed.y - cand.y| then false
  else decide (|cand.x - (seed.x + seed.w)| < maxDistance * 3)

/-- Indices absorbed into the group seeded at `i` (the inner `for j` loop):
every index not yet used, other than the seed, passing `absorbCond`
against the seed. -/
def absorbedIndices (maxDistance : ℤ) (sorted : List RegionBox)
    (seed : RegionBox) (i : ℕ) (used : List ℕ) : List ℕ :=
  (List.range sorted.length).filter
    (fun j => !(used.contains j) && !(j == i)
      && absorbCond maxDistance seed (sorted.getD j seed))

/-- Minimum of a list of integers (`min(...)` over a nonempty list). -/
def intMinList : List ℤ → ℤ
  | [] => 0
  | a :: as => as.foldl min a

/-- Maximum of a list of integers. -/
def intMaxList : List ℤ → ℤ
  | [] => 0
  | a :: as => as.foldl max a

/-- Shared tail of both region-emitting paths (text_detector.py 197-212 and
283-298): pad by `pad`, clamp into image bounds, and drop boxes whose
width or height ends up `≤ 5`. -/
def padClampFilter (pad x y w h imgW imgH : ℤ) : Option RegionBox :=
  let x1 := max 0 (x - pad)
  let y1 := max 0 (y - pad)
  let w1 := w + pad * 2
  let h1 := h + pad * 2
  let x2 := max 0 (min x1 (imgW - 1))
  let y2 := max 0 (min y1 (imgH - 1))
  let w2 := min w1 (imgW - x2)
  let h2 := min h1 (imgH - y2)
  if 5 < w2 ∧ 5 < h2 then some ⟨x2, y2, w2, h2⟩ else none

/-- The outer grouping loop over the sorted boxes, with `fuel` bounding the
remaining indices: seed each un-used index, absorb, take the union box of
the group's members, pad by 10 and clamp, and keep non-degenerate boxes. -/
def groupAux (maxDistance : ℤ) (sorted : List RegionBox) (imgW imgH : ℤ) :
    ℕ → ℕ → List ℕ → List RegionBox
  | 0, _, _ => []
  | fuel + 1, i, used =>
    if hi : i < sorted.length then
      if used.contains i then groupAux maxDistance sorted imgW imgH fuel (i + 1) used
      else
        let seed := sorted.get ⟨i, hi⟩
        let absd := absorbedIndices maxDistance sorted seed i used
        let members := (i :: absd).map (fun j => sorted.getD j seed)
        let mx := intMinList (members.map (fun b => b.x))
        let my := intMinList (members.map (fun b => b.y))
        let mxe := intMaxList (members.map (fun b => b.x + b.w))
        let mye := intMaxList (members.map (fun b => b.y + b.h))
        let rest := groupAux maxDistance sorted imgW imgH fuel (i + 1) (used ++ i :: absd)
        match padClampFilter 10 mx my (mxe - mx) (mye - my) imgW imgH with
        | some r => r :: rest
        | none => rest
    else []

/-- `TextDetector._group_nearby_boxes` (default `max_distance = 50`). -/
def groupNearbyBoxes (boxes : List RegionBox) (imgW imgH maxDistance : ℤ) :
    List RegionBox :=
  let sorted := sortYX boxes
  groupAux maxDistance sorted imgW imgH sorted.length 0 []

/-- `TextDetector.detect_specific_word` after the OCR call: empty phrase
returns nothing; otherwise collect matched words; with several matches and
a multi-word phrase group them (`max_distance = 50`), else emit each match
padded by 8 and clamped. -/
def detect_specific_word (ocr : List OcrWord) (imgW imgH : ℤ)
    (targetWord : String) (thr : ℤ) (caseSensitive exactMatch : Bool) :
    List RegionBox :=
  if (trimChars targetWord.toList).isEmpty then []
  else
    let t := normalizeChars caseSensitive (trimChars targetWord.toList)
    let tws := splitWsWords t
    let matched := matchedWords ocr targetWord thr caseSensitive exactMatch
    if 1 < matched.length ∧ 1 < tws.length then
      groupNearbyBoxes (matched.map (fun m => ⟨m.x, m.y, m.w, m.h⟩)) imgW imgH 50
    else
      matched.filterMap (fun m => padClampFilter 8 m.x m.y m.w m.h imgW imgH)

/-! ## Free-text detection (`DetectionEngine.detect_text`, image_processor.py 194-212) -/

/-- `DetectionEngine.detect_text` (OCR branch): keep every OCR box with
confidence above 30 and width and height above 10, unchanged and
unclamped. -/
def detect_text (ocr : List OcrWord) : List RegionBox :=
  (ocr.filter (fun d => decide (30 < d.conf) && decide (10 < d.w)
    && decide (10 < d.h))).map (fun d => ⟨d.x, d.y, d.w, d.h⟩)

/-- A box lies inside a `imgW × imgH` image. -/
def InBounds (imgW imgH : ℤ) (r : RegionBox) : Prop :=
  0 ≤ r.x ∧ 0 ≤ r.y ∧ r.x + r.w ≤ imgW ∧ r.y + r.h ≤ imgH

instance (imgW imgH : ℤ) (r : RegionBox) : Decidable (InBounds imgW imgH r) := by
  unfold InBounds
  infer_instance

theorem padClampFilter_bounds (pad x y w h imgW imgH : ℤ) (r : RegionBox)
    (hr : padClampFilter pad x y w h imgW imgH = some r) :
    InBounds imgW imgH r ∧ 5 < r.w ∧ 5 < r.h := by
  simp only [padClampFilter] at hr
  split at hr
  · rename_i hcond
    cases hr
    refine ⟨⟨?_, ?_, ?_, ?_⟩, hcond.1, hcond.2⟩ <;> simp only [] <;> omega
  · exact Option.noConfusion hr

theorem mem_option_cons_cases {o : Option RegionBox} {rest : List RegionBox}
    {r : RegionBox}
    (hr : r ∈ (match o with | some q => q :: rest | none => rest)) :
    o = some r ∨ r ∈ rest := by
  cases o with
  | none => exact .inr hr
  | some q =>
    rcases List.mem_cons.mp hr with h | h
    · exact .inl (by rw [h])
    · exact .inr h

theorem groupAux_mem_bounds (md : ℤ) (sorted : List RegionBox) (imgW imgH : ℤ) :
    ∀ (fuel i : ℕ) (used : List ℕ) (r : RegionBox),
      r ∈ groupAux md sorted imgW imgH fuel i used → InBounds imgW imgH r := by
  intro fuel
  induction fuel with
  | zero =>
    intro i used r hr
    simp [groupAux] at hr
  | succ fuel ih =>
    intro i used r hr
    rw [groupAux] at hr
    by_cases hi : i < sorted.length
    · rw [dif_pos hi] at hr
      by_cases hu : sorted.length ≤ 0
      · exact absurd hi (by omega)
      · by_cases hc : used.contains i = true
        · rw [if_pos hc] at hr
          exact ih _ _ _ hr
        · rw [if_neg hc] at hr
          rcases mem_option_cons_cases hr with h | h
          · exact (padClampFilter_bounds _ _ _ _ _ _ _ _ h).1
          · exact ih _ _ _ h
    · rw [dif_neg hi] at hr
      simp at hr

/-- The out-of-bounds OCR word used in the free-text counterexample. -/
def oobWord : OcrWord := ⟨"x", -5, 0, 20, 20, 50⟩

/-- Claim C9 counterexample: free-text detection passes OCR boxes through
without clamping, so an OCR collaborator reporting a box at x = -5 makes
`detect_text` return a box outside a 100×100 image. -/
theorem free_text_out_of_bounds_counterexample :
    detect_text [oobWord] = [⟨-5, 0, 20, 20⟩]
    ∧ ¬ (∀ r ∈ detect_text [oobWord], InBounds 100 100 r) := by
  exact ⟨by decide, by decide⟩

/-- Claim C9 (amended): every box produced by targeted-text detection lies
inside the image for arbitrary OCR collaborator output; free-text
detection returns the OCR boxes unclamped (filtered only by confidence
and size), so its boxes lie inside the image whenever the OCR
collaborator's boxes do. -/
theorem detection_box_bounds :
    (∀ (ocr : List OcrWord) (imgW imgH : ℤ) (targetWord : String) (thr : ℤ)
        (cs em : Bool) (r : RegionBox),
      r ∈ detect_specific_word ocr imgW imgH targetWord thr cs em →
        InBounds imgW imgH r)
    ∧ (∀ (ocr : List OcrWord) (imgW imgH : ℤ),
        (∀ d ∈ ocr, InBounds imgW imgH ⟨d.x, d.y, d.w, d.h⟩) →
        ∀ r ∈ detect_text ocr, InBounds imgW imgH r) := by
  constructor
  · intro ocr imgW imgH targetWord thr cs em r hr
    simp only [detect_specific_word] at hr
    split at hr
    · simp at hr
    · split at hr
      · simp only [groupNearbyBoxes] at hr
        exact groupAux_mem_bounds _ _ _ _ _ _ _ _ hr
      · rcases List.mem_filterMap.mp hr with ⟨m, _, hm⟩
        exact (padClampFilter_bounds _ _ _ _ _ _ _ _ hm).1
  · intro ocr imgW imgH hocr r hr
    simp only [detect_text] at hr
    rcases List.mem_map.mp hr with ⟨d, hd, hbox⟩
    have hdo : d ∈ ocr := List.mem_of_mem_filter hd
    rw [← hbox]
    exact hocr d hdo

/-- The OCR words of the "Remind Me" phrase-grouping scenario. -/
def remindOcr : List OcrWord :=
  [⟨"Remind", 10, 10, 50, 20, 90⟩, ⟨"Me", 65, 10, 30, 20, 88⟩]

/-- Witness for `detection_box_bounds` at concrete inputs. -/
theorem detection_box_bounds_witness :
    InBounds 200 200 ⟨0, 0, 105, 40⟩ ∧ InBounds 100 100 ⟨0, 0, 20, 20⟩ :=
  ⟨detection_box_bounds.1 remindOcr 200 200 "Remind Me" 30 false false
      ⟨0, 0, 105, 40⟩ (by decide),
   detection_box_bounds.2 [⟨"a", 0, 0, 20, 20, 50⟩] 100 100 (by decide)
      ⟨0, 0, 20, 20⟩ (by decide)⟩

theorem contains_eq_false_iff (l : List ℕ) (j : ℕ) :
    l.contains j = false ↔ ¬ j ∈ l := by
  simp [List.contains]

theorem absorbCond_iff (md : ℤ) (seed cand : RegionBox) :
    absorbCond md seed cand = true
      ↔ (|seed.y - cand.y| ≤ max seed.h cand.h
          ∧ |cand.x - (seed.x + seed.w)| < md * 3) := by
  unfold absorbCond
  split
  · rename_i hgt
    simp only [Bool.false_eq_true, false_iff, not_and]
    intro hle
    exact absurd hle (not_le.mpr hgt)
  · rename_i hng
    rw [not_lt] at hng
    simp [decide_eq_true_iff, hng]

/-- The two boxes refuting the vertical-center reading of absorption:
tops 101 apart (more than the larger height 100, so the code keeps them
separate) while the vertical centers are only 56 apart (within the larger
height, so the claim would group them). -/
def cexB1 : RegionBox := ⟨0, 0, 10, 100⟩

/-- Companion box of `cexB1`, see there. -/
def cexB2 : RegionBox := ⟨20, 101, 10, 10⟩

/-- Claim C2 counterexample: seeding a group at `cexB1` absorbs nothing,
although `cexB2` is un-grouped, its vertical center is within the larger
of the two heights of the seed's center, and its horizontal gap from the
seed's right edge is under 150 — so "absorbs exactly when the vertical
centers differ by no more than the larger height" is false, and the
grouper returns two boxes where the claim predicts one. -/
theorem grouping_vertical_center_counterexample :
    ¬ (1 ∈ absorbedIndices 50 [cexB1, cexB2] cexB1 0 []
        ↔ (|2 * cexB1.y + cexB1.h - (2 * cexB2.y + cexB2.h)|
              ≤ 2 * max cexB1.h cexB2.h
            ∧ |cexB2.x - (cexB1.x + cexB1.w)| < 150))
    ∧ (groupNearbyBoxes [cexB1, cexB2] 300 300 50).length = 2 := by
  exact ⟨by decide, by decide⟩

/-- Claim C2 (amended): in multi-word phrase grouping, a seeded group
absorbs another un-grouped candidate box exactly when the two boxes'
*top-edge y coordinates* differ by no more than the larger of the two
boxes' heights and the horizontal gap from the seed's right edge is
strictly below 150 pixels (3×50); the group's final box is the union of
member boxes plus 10px padding clamped to image bounds, and boxes with
width or height ≤ 5 are dropped — and for OCR words "Remind" at
(10,10,50,20) conf 90 and "Me" at (65,10,30,20) conf 88 with target
phrase "Remind Me", exactly one box spanning both words with 10px padding
is returned. -/
theorem grouping_top_edges_and_phrase_box :
    (∀ (md : ℤ) (sorted : List RegionBox) (seed : RegionBox) (i : ℕ)
        (used : List ℕ) (j : ℕ),
      j ∈ absorbedIndices md sorted seed i used
        ↔ (j < sorted.length ∧ ¬ j ∈ used ∧ j ≠ i
            ∧ |seed.y - (sorted.getD j seed).y| ≤ max seed.h (sorted.getD j seed).h
            ∧ |(sorted.getD j seed).x - (seed.x + seed.w)| < md * 3))
    ∧ detect_specific_word remindOcr 200 200 "Remind Me" 30 false false
        = [⟨0, 0, 105, 40⟩] := by
  constructor
  · intro md sorted seed i used j
    simp only [absorbedIndices, List.mem_filter, List.mem_range,
      Bool.and_eq_true, Bool.not_eq_true', beq_eq_false_iff_ne, ne_eq,
      contains_eq_false_iff, absorbCond_iff]
    tauto
  · decide

theorem startsWithChars_self (s : Chars) : startsWithChars s s = true := by
  simp [startsWithChars, List.isPrefixOf_iff_prefix]

theorem multiWordMatch_iff (em : Bool) (compare : Chars) (ts : List Chars) :
    multiWordMatch em compare ts = true
      ↔ ∃ t ∈ ts, compare = t
          ∨ (em = false
              ∧ (startsWithChars compare t = true ∨ startsWithChars t compare = true)
              ∧ compare.length ≤ 2 * t.length) := by
  induction ts with
  | nil => simp [multiWordMatch]
  | cons t ts ih =>
    rw [List.exists_mem_cons_iff]
    cases em with
    | true =>
      cases hcq : compare == t with
      | true =>
        have hc : compare = t := beq_iff_eq.mp hcq
        simp [multiWordMatch, hcq, hc]
      | false =>
        have hc : ¬ compare = t := by
          simpa using (beq_eq_false_iff_ne (a := compare) (b := t)).mp hcq
        simp [multiWordMatch, hcq, hc, ih]
    | false =>
      by_cases hsw : (startsWithChars compare t || startsWithChars t compare) = true
      · by_cases hlen : compare.length ≤ t.length * 2
        · have hl2 : compare.length ≤ 2 * t.length := by omega
          simp only [multiWordMatch, if_false, Bool.false_eq_true, hsw, if_true, hlen,
            ite_true, ite_false, eq_self_iff_true, true_iff]
          exact .inl (.inr ⟨trivial, by simpa using hsw, hl2⟩)
        · have hneq : ¬ compare = t := by
            intro h
            subst h
            exact hlen (by omega)
          have hl2 : ¬ compare.length ≤ 2 * t.length := by omega
          simp [multiWordMatch, hsw, hlen, hneq, hl2, ih]
      · have hboth := hsw
        rw [Bool.or_eq_true] at hboth
        push_neg at hboth
        cases hcq : compare == t with
        | true =>
          have hc : compare = t := beq_iff_eq.mp hcq
          subst hc
          exact absurd (startsWithChars_self compare) (by simp_all)
        | false =>
          have hc : ¬ compare = t := by
            simpa using (beq_eq_false_iff_ne (a := compare) (b := t)).mp hcq
          simp [multiWordMatch, hsw, hcq, hc, ih, hboth.1, hboth.2]

/-- Claim C8: a stripped OCR word enters the matched set exactly when its
confidence is at or above the floor and it matches the normalized target:
for a single-word phrase by string equality under `exact_match` and by
substring containment of the target in the word otherwise; for a
multi-word phrase exactly when some target word equals it or — when not
exact — either string is a prefix of the other and the word's length is
at most twice the target word's length. In particular phrase "cat" with
`exact_match = true` does not match the OCR word "category" at
confidence 80. -/
theorem text_match_rules :
    (∀ (em : Bool) (target compare : Chars),
      singleWordMatch em target compare
        = (if em then compare == target else containsChars compare target))
    ∧ (∀ (em : Bool) (compare : Chars) (ts : List Chars),
        multiWordMatch em compare ts = true
          ↔ ∃ t ∈ ts, compare = t
              ∨ (em = false
                  ∧ (startsWithChars compare t = true
                      ∨ startsWithChars t compare = true)
                  ∧ compare.length ≤ 2 * t.length))
    ∧ (∀ (ocr : List OcrWord) (targetWord : String) (thr : ℤ)
          (cs em : Bool) (wd : OcrWord),
        wd ∈ matchedWords ocr targetWord thr cs em
          ↔ (wd ∈ ocr ∧ (trimChars wd.text.toList).isEmpty = false
              ∧ thr ≤ wd.conf
              ∧ wordMatches (normalizeChars cs (trimChars targetWord.toList))
                  (splitWsWords (normalizeChars cs (trimChars targetWord.toList)))
                  em (normalizeChars cs (trimChars wd.text.toList)) = true))
    ∧ detect_specific_word [⟨"category", 10, 10, 50, 20, 80⟩] 100 100
        "cat" 30 false true = [] := by
  refine ⟨fun em target compare => rfl, multiWordMatch_iff, ?_, by decide⟩
  intro ocr targetWord thr cs em wd
  simp only [matchedWords, List.mem_filter, Bool.and_eq_true, Bool.not_eq_true',
    decide_eq_false_iff_not, not_lt]
  tauto

end DotScramble
